import Mathlib

/-!
Shallow embedding of `src/pattern-randomness.py` (class `ImprovedRandomGenerator`).

The generator's mutable state is its history list (oldest first), embedded as a
`List Int` that is passed explicitly.  The underlying uniform random source
(`random.Random.randint`) is embedded as a draw stream `src : Nat → Int → Int → Int`:
`src n start endv` is the result of the `n`-th call to `randint(start, endv)`; the
draw counter `n` is threaded through the loop, mirroring the advancing state of the
Mersenne-Twister source.  The unbounded `while True` loop of `random_number` is
embedded with explicit fuel, so termination of the Python loop at a state is the
existence of sufficient fuel (`terminates`).

Python's float `math.log2` arithmetic in `compressed_description_length` is embedded
over the reals (`Real.logb 2`); the comparison against `0.8 * log2(endv - start + 1)`
used inside `is_random_enough` is expressed by the exactly equivalent integer
comparison `P ^ 5 < R ^ 4` (`cdl_below`), where `P` is the product of the run-length
weights and `R` the range size; the lemma `cdl_below_iff_logb` proves this equivalence
against the real-valued `compressed_description_length`, so the executable
`is_random_enough` decides exactly the real-arithmetic comparison of the source.
-/

namespace PatternRandomness

/-- `self.max_history = 100`: maximum size of the history list. -/
def max_history : Nat := 100

/-- `check_arithmetic_sequence(self, candidate)`: with fewer than two history entries
return `False`; otherwise compare `history[-1] - history[-2]` with
`candidate - history[-1]`. -/
def check_arithmetic_sequence (history : List Int) (candidate : Int) : Bool :=
  if history.length < 2 then false
  else
    let diff1 := history.getLastD 0 - history.dropLast.getLastD 0
    let diff2 := candidate - history.getLastD 0
    diff1 == diff2

/-- `check_repeating_sequence(self, candidate)`:
`len(self.history) > 0 and candidate == self.history[-1]`. -/
def check_repeating_sequence (history : List Int) (candidate : Int) : Bool :=
  decide (0 < history.length) && (candidate == history.getLastD 0)

/-- `check_alternating_sequence(self, candidate)`: with fewer than two history
entries return `False`; otherwise `candidate == self.history[-2]`. -/
def check_alternating_sequence (history : List Int) (candidate : Int) : Bool :=
  if history.length < 2 then false
  else candidate == history.dropLast.getLastD 0

/-- Run-length encoding worker: `v` is the current run's value, `count` its length
so far.  Mirrors the accumulation loop of `compressed_description_length`. -/
def rleAux (v : Int) (count : Nat) : List Int → List (Int × Nat)
  | [] => [(v, count)]
  | x :: xs => if x == v then rleAux v (count + 1) xs else (v, count) :: rleAux x 1 xs

/-- Run-length encoding of a sequence into `(value, runCount)` pairs preserving
order, as computed by the loop in `compressed_description_length`. -/
def rle : List Int → List (Int × Nat)
  | [] => []
  | x :: xs => rleAux x 1 xs

/-- `sequence = self.history[-2:] + [candidate]`: the window scored by
`compressed_description_length`.  `List.drop (length - 2)` is Python's `[-2:]`
slice (the whole list when it has fewer than two elements). -/
def cdl_window (history : List Int) (candidate : Int) : List Int :=
  history.drop (history.length - 2) ++ [candidate]

/-- The integer weight `max(1, abs(num)) * count` contributed by one run-length
pair; its `log2` is the pair's summand in `compressed_description_length`. -/
def cdlWeight (p : Int × Nat) : Nat := max 1 p.1.natAbs * p.2

/-- Product of the run-length weights of the scored window.  `log2` of this
product equals the float score computed by the source (see `score_eq_logb`). -/
def cdlProd (history : List Int) (candidate : Int) : Nat :=
  ((rle (cdl_window history candidate)).map cdlWeight).prod

/-- `compressed_description_length(self, candidate)`:
`sum(log2(max(1, abs(num))) + log2(count) for num, count in compressed)` over the
run-length encoding of `history[-2:] + [candidate]`, embedded over the reals. -/
noncomputable def compressed_description_length (history : List Int) (candidate : Int) : ℝ :=
  ((rle (cdl_window history candidate)).map
    (fun p => Real.logb 2 ((max 1 p.1.natAbs : ℕ) : ℝ) + Real.logb 2 (p.2 : ℝ))).sum

/-- The stage-4 rejection test of `is_random_enough`:
`compressed_description_length(candidate) < 0.8 * log2(endv - start + 1)`, expressed
by the exactly equivalent integer comparison `P ^ 5 < R ^ 4` (taking `2 ^ (5 *·)` of
both sides of the real comparison); `cdl_below_iff_logb` proves the equivalence. -/
def cdl_below (history : List Int) (candidate start endv : Int) : Bool :=
  decide (cdlProd history candidate ^ 5 < (endv - start + 1).toNat ^ 4)

/-- `is_random_enough(self, candidate, start, end)`: accept unconditionally while
the history has fewer than 3 entries, otherwise reject when any of the four
checks fires, in the source's order. -/
def is_random_enough (history : List Int) (candidate start endv : Int) : Bool :=
  if history.length < 3 then true
  else if check_arithmetic_sequence history candidate then false
  else if check_repeating_sequence history candidate then false
  else if check_alternating_sequence history candidate then false
  else if cdl_below history candidate start endv then false
  else true

/-- `update_history(self, number)`: append, then `pop(0)` the oldest entry when
the length exceeds `max_history`. -/
def update_history (history : List Int) (number : Int) : List Int :=
  let h := history ++ [number]
  if max_history < h.length then h.tail else h

/-- Result of a fuelled run of the `random_number` loop: a value together with the
updated history and draw counter, the `ValueError` that `randint` raises when
`start > endv`, or fuel exhaustion (carrying the—unchanged—history and counter). -/
inductive RandResult where
  | ok (value : Int) (history : List Int) (draws : Nat)
  | invalidRange
  | outOfFuel (history : List Int) (draws : Nat)
  deriving DecidableEq

/-- `random_number(self, start, end)`: the rejection-sampling loop, with explicit
fuel bounding the number of iterations.  Each iteration draws
`candidate = src n start endv` (advancing the draw counter), raises on an invalid
range as `randint` does, returns the candidate after `update_history` when
`is_random_enough` accepts it, and otherwise redraws with the history unchanged. -/
def random_number (src : Nat → Int → Int → Int) (start endv : Int) :
    Nat → Nat → List Int → RandResult
  | 0, n, history => .outOfFuel history n
  | fuel + 1, n, history =>
    if endv < start then .invalidRange
    else
      let candidate := src n start endv
      if is_random_enough history candidate start endv then
        .ok candidate (update_history history candidate) (n + 1)
      else
        random_number src start endv fuel (n + 1) history

/-- The Python `while True` loop terminates at a state exactly when some amount of
fuel suffices for the embedded loop to return a value. -/
def terminates (src : Nat → Int → Int → Int) (start endv : Int)
    (n : Nat) (history : List Int) : Prop :=
  ∃ fuel v h n2, random_number src start endv fuel n history = .ok v h n2

/-- Run a generator through a list of `(start, endv)` requests, collecting the
accepted values; stops early if a call errors or runs out of fuel. -/
def run_gen (src : Nat → Int → Int → Int) (fuel : Nat) :
    List (Int × Int) → Nat → List Int → List Int
  | [], _, _ => []
  | (s, e) :: rest, n, history =>
    match random_number src s e fuel n history with
    | .ok v h2 n2 => v :: run_gen src fuel rest n2 h2
    | _ => []

/-- The history contents after the accept step has recorded each of `outputs` in
order, starting from the empty history of a fresh generator. -/
def histAfter (outputs : List Int) : List Int :=
  outputs.foldl update_history []

/-- Modelled from the spec: the run-length encoding score of a window — encode
maximal runs of consecutive equal values as `(value, runCount)` pairs preserving
order, and sum `log2(max(1, abs(value))) + log2(runCount)` over the pairs. -/
noncomputable def rle_score (window : List Int) : ℝ :=
  ((rle window).map
    (fun p => Real.logb 2 ((max 1 p.1.natAbs : ℕ) : ℝ) + Real.logb 2 (p.2 : ℝ))).sum

/-- The history component carried by a loop result; an errored call leaves the
caller's history `h` in place. -/
def result_history (r : RandResult) (h : List Int) : List Int :=
  match r with
  | .ok _ h2 _ => h2
  | .outOfFuel h2 _ => h2
  | .invalidRange => h

/-- The history the frame condition predicts: unchanged unless a value was
accepted, in which case exactly one `update_history` was performed. -/
def expected_history (r : RandResult) (h : List Int) : List Int :=
  match r with
  | .ok v _ _ => update_history h v
  | _ => h

/-- Both `log2` arguments of every run-length pair of a window are at least 1, so
neither `log2` call can see a non-positive argument. -/
def rle_weights_pos (window : List Int) : Bool :=
  (rle window).all fun p => decide (1 ≤ max 1 p.1.natAbs) && decide (1 ≤ p.2)

/-! ### Supporting lemmas -/

/-- Every run count produced by the run-length-encoding worker is positive, given a
positive running count. -/
theorem rleAux_count_pos (l : List Int) : ∀ v c, 0 < c → ∀ p ∈ rleAux v c l, 0 < p.2 := by
  induction l with
  | nil =>
    intro v c hc p hp
    simp only [rleAux, List.mem_singleton] at hp
    simp [hp, hc]
  | cons x xs ih =>
    intro v c hc p hp
    simp only [rleAux] at hp
    by_cases hx : (x == v) = true
    · rw [if_pos hx] at hp
      exact ih v (c + 1) (by omega) p hp
    · rw [if_neg hx] at hp
      rcases List.mem_cons.mp hp with hp | hp
      · simp [hp, hc]
      · exact ih x 1 one_pos p hp

/-- Every run count produced by `rle` is positive. -/
theorem rle_count_pos (w : List Int) : ∀ p ∈ rle w, 0 < p.2 := by
  cases w with
  | nil => simp [rle]
  | cons x xs => exact rleAux_count_pos xs x 1 one_pos

/-- The product of the run-length weights of a scored window is at least 1. -/
theorem one_le_cdlProd (h : List Int) (c : Int) : 1 ≤ cdlProd h c := by
  unfold cdlProd
  have hpos : ∀ a ∈ (rle (cdl_window h c)).map cdlWeight, 0 < a := by
    intro a ha
    rcases List.mem_map.mp ha with ⟨p, hp, rfl⟩
    have hc := rle_count_pos _ p hp
    unfold cdlWeight
    exact Nat.mul_pos (by omega) hc
  have := List.prod_pos hpos
  omega

/-- Summing `log2` of the two factors of each run-length weight over a list of
pairs with positive counts computes `log2` of the product of the weights. -/
theorem sum_logb_eq (l : List (Int × Nat)) (hl : ∀ p ∈ l, 0 < p.2) :
    ((l.map fun p => Real.logb 2 ((max 1 p.1.natAbs : ℕ) : ℝ) + Real.logb 2 (p.2 : ℝ)).sum)
      = Real.logb 2 (((l.map cdlWeight).prod : ℕ) : ℝ) := by
  induction l with
  | nil => simp
  | cons p l ih =>
    have hp2 : 0 < p.2 := hl p (List.mem_cons_self p l)
    have hrest : ∀ q ∈ l, 0 < q.2 := fun q hq => hl q (List.mem_cons_of_mem p hq)
    have hprodpos : 0 < (l.map cdlWeight).prod := by
      apply List.prod_pos
      intro a ha
      rcases List.mem_map.mp ha with ⟨q, hq, rfl⟩
      exact Nat.mul_pos (by omega) (hrest q hq)
    have hA : (0:ℝ) < ((max 1 p.1.natAbs : ℕ) : ℝ) := by
      exact_mod_cast Nat.lt_of_lt_of_le Nat.zero_lt_one (le_max_left 1 p.1.natAbs)
    have hB : (0:ℝ) < ((p.2 : ℕ) : ℝ) := by exact_mod_cast hp2
    have hC : (0:ℝ) < (((l.map cdlWeight).prod : ℕ) : ℝ) := by exact_mod_cast hprodpos
    simp only [List.map_cons, List.sum_cons, List.prod_cons]
    rw [ih hrest]
    have hw : ((cdlWeight p * (l.map cdlWeight).prod : ℕ) : ℝ)
        = ((max 1 p.1.natAbs : ℕ) : ℝ) * ((p.2 : ℕ) : ℝ)
            * (((l.map cdlWeight).prod : ℕ) : ℝ) := by
      unfold cdlWeight
      push_cast
      ring
    rw [hw, Real.logb_mul (by positivity) (ne_of_gt hC),
      Real.logb_mul (ne_of_gt hA) (ne_of_gt hB)]

/-- The float score of the source equals `log2` of the weight product. -/
theorem score_eq_logb (h : List Int) (c : Int) :
    compressed_description_length h c = Real.logb 2 ((cdlProd h c : ℕ) : ℝ) := by
  unfold compressed_description_length cdlProd
  exact sum_logb_eq _ (rle_count_pos _)

/-- The integer comparison `P ^ 5 < R ^ 4` implemented by `cdl_below` decides
exactly the source's comparison
`compressed_description_length < 0.8 * log2(endv - start + 1)`. -/
theorem cdl_below_iff_logb (h : List Int) (c start endv : Int) (hse : start ≤ endv) :
    cdl_below h c start endv = true ↔
      compressed_description_length h c
        < 0.8 * Real.logb 2 ((endv - start + 1 : ℤ) : ℝ) := by
  have hP : 1 ≤ cdlProd h c := one_le_cdlProd h c
  have hR : 1 ≤ (endv - start + 1).toNat := by omega
  have hcast : ((endv - start + 1 : ℤ) : ℝ) = (((endv - start + 1).toNat : ℕ) : ℝ) := by
    have h0 : (0:ℤ) ≤ endv - start + 1 := by omega
    exact_mod_cast (congrArg (Int.cast : ℤ → ℝ) (Int.toNat_of_nonneg h0).symm)
  have hPpos : (0:ℝ) < ((cdlProd h c : ℕ) : ℝ) := by exact_mod_cast Nat.lt_of_lt_of_le Nat.zero_lt_one hP
  have hRpos : (0:ℝ) < (((endv - start + 1).toNat : ℕ) : ℝ) := by
    exact_mod_cast Nat.lt_of_lt_of_le Nat.zero_lt_one hR
  rw [score_eq_logb, hcast, show (0.8 : ℝ) = 4 / 5 by norm_num]
  unfold cdl_below
  simp only [decide_eq_true_eq]
  constructor
  · intro hlt
    have hltR : ((cdlProd h c : ℕ) : ℝ) ^ 5 < (((endv - start + 1).toNat : ℕ) : ℝ) ^ 4 := by
      exact_mod_cast hlt
    have h2 := Real.logb_lt_logb (by norm_num : (1:ℝ) < 2) (by positivity) hltR
    rw [Real.logb_pow, Real.logb_pow] at h2
    push_cast at h2
    linarith
  · intro hlt
    have h5 : ((5:ℕ) : ℝ) * Real.logb 2 ((cdlProd h c : ℕ) : ℝ)
        < ((4:ℕ) : ℝ) * Real.logb 2 (((endv - start + 1).toNat : ℕ) : ℝ) := by
      push_cast
      linarith
    rw [← Real.logb_pow, ← Real.logb_pow] at h5
    have := (Real.logb_lt_logb_iff (by norm_num : (1:ℝ) < 2)
      (by positivity) (by positivity)).mp h5
    exact_mod_cast this

/-- A value returned by the loop was accepted by `is_random_enough` against the
caller's history, was recorded by exactly one `update_history`, and came from some
draw of the source. -/
theorem random_number_ok (src : Nat → Int → Int → Int) (start endv : Int) :
    ∀ fuel n h v h2 n2, random_number src start endv fuel n h = .ok v h2 n2 →
      is_random_enough h v start endv = true ∧ h2 = update_history h v ∧
        ∃ m, v = src m start endv := by
  intro fuel
  induction fuel with
  | zero =>
    intro n h v h2 n2 heq
    simp [random_number] at heq
  | succ fuel ih =>
    intro n h v h2 n2 heq
    simp only [random_number] at heq
    by_cases hlt : endv < start
    · rw [if_pos hlt] at heq
      exact absurd heq (by simp)
    · rw [if_neg hlt] at heq
      by_cases hacc : is_random_enough h (src n start endv) start endv = true
      · rw [if_pos hacc] at heq
        injection heq with hv hh hn
        subst hv
        exact ⟨hacc, hh.symm, n, rfl⟩
      · rw [if_neg hacc] at heq
        exact ih (n + 1) h v h2 n2 heq

/-- Two pointwise-equal draw streams drive the loop to identical results. -/
theorem random_number_congr (src1 src2 : Nat → Int → Int → Int)
    (hsrc : ∀ m s e, src1 m s e = src2 m s e) (start endv : Int) :
    ∀ fuel n h, random_number src1 start endv fuel n h
      = random_number src2 start endv fuel n h := by
  intro fuel
  induction fuel with
  | zero => intro n h; rfl
  | succ fuel ih =>
    intro n h
    simp only [random_number, hsrc, ih]

/-- Two pointwise-equal draw streams produce identical request-run outputs. -/
theorem run_gen_congr (src1 src2 : Nat → Int → Int → Int)
    (hsrc : ∀ m s e, src1 m s e = src2 m s e) (fuel : Nat) :
    ∀ reqs n h, run_gen src1 fuel reqs n h = run_gen src2 fuel reqs n h := by
  intro reqs
  induction reqs with
  | nil => intro n h; rfl
  | cons p rest ih =>
    intro n h
    obtain ⟨s, e⟩ := p
    simp only [run_gen]
    rw [random_number_congr src1 src2 hsrc s e fuel n h]
    cases random_number src2 s e fuel n h with
    | ok v h2 n2 => simp only [ih]
    | invalidRange => rfl
    | outOfFuel h2 n2 => rfl

/-- When every draw of the degenerate range returns its single value and the
history rejects that value, the loop spins without ever changing state. -/
theorem reject_stuck (src : Nat → Int → Int → Int) (s : Int) (h : List Int)
    (hsrc : ∀ m, src m s s = s) (hrej : is_random_enough h s s s = false) :
    ∀ fuel n, random_number src s s fuel n h = .outOfFuel h (n + fuel) := by
  intro fuel
  induction fuel with
  | zero => intro n; rfl
  | succ fuel ih =>
    intro n
    simp only [random_number]
    rw [if_neg (lt_irrefl s), hsrc n, if_neg (by simp [hrej]), ih (n + 1)]
    congr 1
    omega

/-- The accept-step fold keeps the last `max_history` recorded values, oldest
first, provided the starting history is within capacity. -/
theorem foldl_update_eq (xs : List Int) :
    ∀ h : List Int, h.length ≤ max_history →
      xs.foldl update_history h = (h ++ xs).drop (h.length + xs.length - max_history) := by
  induction xs with
  | nil =>
    intro h hh
    simp [Nat.sub_eq_zero_of_le hh]
  | cons x xs ih =>
    intro h hh
    rw [List.foldl_cons]
    by_cases hc : h.length < max_history
    · have hupd : update_history h x = h ++ [x] := by
        unfold update_history
        rw [if_neg (by simp; omega)]
      rw [hupd, ih (h ++ [x]) (by simp; omega)]
      rw [List.append_assoc, List.singleton_append]
      congr 1
      simp
      omega
    · have hlen : h.length = max_history := le_antisymm hh (not_lt.mp hc)
      have hne : h ≠ [] := by
        intro hnil
        rw [hnil] at hlen
        simp [max_history] at hlen
      obtain ⟨a, t, rfl⟩ := List.exists_cons_of_ne_nil hne
      have ht : t.length = max_history - 1 := by
        simp at hlen
        omega
      have hupd : update_history (a :: t) x = t ++ [x] := by
        unfold update_history
        rw [if_pos (by simp [max_history] at hlen ⊢; omega)]
        simp
      rw [hupd, ih (t ++ [x]) (by simp [max_history] at ht ⊢; omega)]
      have e1 : (t ++ [x]).length + xs.length - max_history = xs.length := by
        simp [max_history] at ht ⊢
        omega
      have e2 : (a :: t).length + (x :: xs).length - max_history = xs.length + 1 := by
        simp [max_history] at ht ⊢
        omega
      rw [e1, e2, List.append_assoc, List.singleton_append, List.cons_append,
        List.drop_succ_cons]

/-! ### Claims -/

/-- Claim C1: with fewer than 3 history entries `is_random_enough` returns `true`
unconditionally; with 3 or more it returns `false` exactly when at least one of the
four predicates fires — stated as an equation with an order-independent disjunction
of the four checks, so the result does not depend on evaluation order. -/
theorem is_random_enough_characterization (history : List Int) (candidate start endv : Int) :
    is_random_enough history candidate start endv
      = (decide (history.length < 3) ||
         !(check_arithmetic_sequence history candidate ||
           check_repeating_sequence history candidate ||
           check_alternating_sequence history candidate ||
           cdl_below history candidate start endv)) := by
  unfold is_random_enough
  split_ifs with h1 h2 h3 h4 h5 <;> simp_all

/-- Claim C2 (amended): with `start == end`, the loop terminates exactly when
`is_random_enough` accepts the range's single value against the current history
(in particular always while the history has fewer than 3 entries), and any value it
returns is that single value, recorded by one `update_history`; when the current
history rejects the value — e.g. after three accepted copies of it — the loop never
terminates. -/
theorem degenerate_range_spec (src : Nat → Int → Int → Int) (s : Int)
    (n : Nat) (h : List Int) (hsrc : ∀ m, src m s s = s) :
    (terminates src s s n h ↔ is_random_enough h s s s = true) ∧
    (∀ fuel v h2 n2, random_number src s s fuel n h = .ok v h2 n2 →
      v = s ∧ h2 = update_history h s) := by
  constructor
  · constructor
    · rintro ⟨fuel, v, h2, n2, heq⟩
      by_contra hrej
      have hrej2 : is_random_enough h s s s = false := by
        cases hb : is_random_enough h s s s
        · rfl
        · exact absurd hb hrej
      rw [reject_stuck src s h hsrc hrej2 fuel n] at heq
      exact RandResult.noConfusion heq
    · intro hacc
      refine ⟨1, s, update_history h s, n + 1, ?_⟩
      simp only [random_number]
      rw [if_neg (lt_irrefl s), hsrc n, if_pos hacc]
  · intro fuel v h2 n2 heq
    obtain ⟨-, hh2, m, hv⟩ := random_number_ok src s s fuel n h v h2 n2 heq
    rw [hsrc m] at hv
    subst hv
    exact ⟨rfl, hh2⟩

/-- Witness for claim C2's amended theorem: on a fresh generator the degenerate
call `next(5, 5)` terminates. -/
theorem degenerate_range_spec_witness : terminates (fun _ _ _ => (5:Int)) 5 5 0 [] :=
  ((degenerate_range_spec (fun _ _ _ => (5:Int)) 5 0 [] (fun _ => rfl)).1).mpr (by decide)

/-- Counterexample to claim C2 as stated: after the first three calls of
`next(5, 5)` have each accepted 5 (the unconditional-accept phase), the history is
`[5, 5, 5]` and the fourth call never terminates — every draw of the only possible
value is rejected. -/
theorem degenerate_range_claim_false :
    ¬ terminates (fun _ s _ => s) 5 5 3 [5, 5, 5] := by
  rintro ⟨fuel, v, h2, n2, heq⟩
  rw [reject_stuck (fun _ s _ => s) 5 [5, 5, 5] (fun _ => rfl) (by decide) fuel 3] at heq
  exact RandResult.noConfusion heq

/-- Claim C3: two generators whose seeded uniform sources agree draw for draw,
given the same request sequence (with valid ranges), emit identical sequences of
accepted integers. -/
theorem run_gen_deterministic (src1 src2 : Nat → Int → Int → Int) (fuel : Nat)
    (reqs : List (Int × Int)) (n : Nat) (h : List Int)
    (hsrc : ∀ m s e, src1 m s e = src2 m s e)
    (hreq : ∀ p ∈ reqs, p.1 ≤ p.2) :
    run_gen src1 fuel reqs n h = run_gen src2 fuel reqs n h :=
  run_gen_congr src1 src2 hsrc fuel reqs n h

/-- Witness for claim C3. -/
theorem run_gen_deterministic_witness :
    run_gen (fun _ s _ => s) 2 [(1, 3), (2, 5)] 0 []
      = run_gen (fun _ s _ => s + 0) 2 [(1, 3), (2, 5)] 0 [] :=
  run_gen_deterministic (fun _ s _ => s) (fun _ s _ => s + 0) 2 [(1, 3), (2, 5)] 0 []
    (fun _ s _ => by simp) (by decide)

/-- Claim C4: a value returned by `random_number` for a valid range, drawn from a
source honoring the inclusive-range contract, lies in `[start, endv]`, and it is
exactly the value appended to the history. -/
theorem random_number_in_range (src : Nat → Int → Int → Int) (start endv : Int)
    (fuel n : Nat) (h : List Int) (v : Int) (h2 : List Int) (n2 : Nat)
    (hse : start ≤ endv)
    (hsrc : ∀ m, start ≤ src m start endv ∧ src m start endv ≤ endv)
    (hok : random_number src start endv fuel n h = .ok v h2 n2) :
    start ≤ v ∧ v ≤ endv ∧ h2 = update_history h v := by
  obtain ⟨-, hh2, m, hv⟩ := random_number_ok src start endv fuel n h v h2 n2 hok
  subst hv
  exact ⟨(hsrc m).1, (hsrc m).2, hh2⟩

/-- Witness for claim C4. -/
theorem random_number_in_range_witness :
    (1:Int) ≤ 1 ∧ (1:Int) ≤ 3 ∧ [(1:Int)] = update_history [] 1 :=
  random_number_in_range (fun _ s _ => s) 1 3 1 0 [] 1 [1] 1 (by decide)
    (fun _ => ⟨by norm_num, by norm_num⟩) (by decide)

/-- Claim C5: after recording `N` accepted outputs the history is exactly the last
`min N 100` of them, oldest first (so its length is `min N 100`, and exactly 100
once `N ≥ 100`), and appending at capacity evicts exactly the oldest entry. -/
theorem history_fifo (xs h : List Int) (x : Int) (hcap : h.length = max_history) :
    histAfter xs = xs.drop (xs.length - max_history) ∧
    (histAfter xs).length = min xs.length max_history ∧
    update_history h x = h.tail ++ [x] := by
  have h1 : histAfter xs = xs.drop (xs.length - max_history) := by
    unfold histAfter
    rw [foldl_update_eq xs [] (by simp)]
    simp
  refine ⟨h1, ?_, ?_⟩
  · rw [h1, List.length_drop]
    omega
  · unfold update_history
    rw [if_pos (by simp [hcap])]
    have hne : h ≠ [] := by
      intro hnil
      rw [hnil] at hcap
      simp [max_history] at hcap
    obtain ⟨a, t, rfl⟩ := List.exists_cons_of_ne_nil hne
    simp

/-- Witness for claim C5. -/
theorem history_fifo_witness :
    histAfter [1, 2, 3] = [1, 2, 3].drop ([1, 2, 3].length - max_history) ∧
    (histAfter [1, 2, 3]).length = min [1, 2, 3].length max_history ∧
    update_history (List.replicate 100 (0:Int)) 5 = (List.replicate 100 (0:Int)).tail ++ [5] :=
  history_fifo [1, 2, 3] (List.replicate 100 (0:Int)) 5 (by simp [max_history])

/-- Claim C6: `compressed_description_length` is the run-length-encoding score of
the 3-element window (last two history entries followed by the candidate), and on a
history of length at least 3, once the first three checks pass, `is_random_enough`
rejects exactly when that score is strictly below `0.8 * log2(endv - start + 1)`. -/
theorem compressed_length_spec (history : List Int) (c start endv : Int)
    (hse : start ≤ endv) (hlen : 3 ≤ history.length)
    (ha : check_arithmetic_sequence history c = false)
    (hr : check_repeating_sequence history c = false)
    (hal : check_alternating_sequence history c = false) :
    compressed_description_length history c
        = rle_score (history.drop (history.length - 2) ++ [c]) ∧
    (is_random_enough history c start endv = false ↔
      compressed_description_length history c
        < 0.8 * Real.logb 2 ((endv - start + 1 : ℤ) : ℝ)) := by
  refine ⟨rfl, ?_⟩
  rw [← cdl_below_iff_logb history c start endv hse]
  unfold is_random_enough
  rw [if_neg (by omega), if_neg (by simp [ha]), if_neg (by simp [hr]), if_neg (by simp [hal])]
  by_cases hb : cdl_below history c start endv = true
  · rw [if_pos hb]
    simp [hb]
  · rw [if_neg hb]
    simp [hb]

/-- Witness for claim C6. -/
theorem compressed_length_spec_witness :
    compressed_description_length [1, 2, 10] 5
        = rle_score ([1, 2, 10].drop ([1, 2, 10].length - 2) ++ [5]) ∧
    (is_random_enough [1, 2, 10] 5 0 100 = false ↔
      compressed_description_length [1, 2, 10] 5
        < 0.8 * Real.logb 2 ((100 - 0 + 1 : ℤ) : ℝ)) :=
  compressed_length_spec [1, 2, 10] 5 0 100 (by decide) (by decide)
    (by decide) (by decide) (by decide)

/-- Claim C7: a value accepted while the history had at least 3 entries does not
continue a constant-difference progression with the two most recent history
entries (the two accepted outputs before it). -/
theorem no_arithmetic_progression (src : Nat → Int → Int → Int) (start endv : Int)
    (fuel n : Nat) (h : List Int) (v : Int) (h2 : List Int) (n2 : Nat)
    (hlen : 3 ≤ h.length)
    (hok : random_number src start endv fuel n h = .ok v h2 n2) :
    v - h.getLastD 0 ≠ h.getLastD 0 - h.dropLast.getLastD 0 := by
  obtain ⟨hacc, -, -⟩ := random_number_ok src start endv fuel n h v h2 n2 hok
  unfold is_random_enough at hacc
  rw [if_neg (by omega)] at hacc
  by_cases harith : check_arithmetic_sequence h v = true
  · rw [if_pos harith] at hacc
    exact absurd hacc (by simp)
  · unfold check_arithmetic_sequence at harith
    rw [if_neg (by omega)] at harith
    simp only [beq_iff_eq] at harith
    exact fun heq => harith heq.symm

/-- Witness for claim C7. -/
theorem no_arithmetic_progression_witness :
    (5:Int) - [1, 2, 10].getLastD 0 ≠ [1, 2, 10].getLastD 0 - [1, 2, 10].dropLast.getLastD 0 :=
  no_arithmetic_progression (fun _ _ _ => 5) 0 100 1 0 [1, 2, 10] 5
    (update_history [1, 2, 10] 5) 1 (by decide) (by decide)

/-- Claim C8: a call with `start > endv` errors on its first iteration, for every
remaining fuel — the error propagates immediately, with no retry and no value. -/
theorem invalid_range_error (src : Nat → Int → Int → Int) (start endv : Int)
    (fuel n : Nat) (h : List Int) (hlt : endv < start) :
    random_number src start endv (fuel + 1) n h = .invalidRange := by
  simp only [random_number]
  rw [if_pos hlt]

/-- Witness for claim C8. -/
theorem invalid_range_error_witness :
    random_number (fun _ _ _ => 0) 3 1 1 0 [] = .invalidRange :=
  invalid_range_error (fun _ _ _ => 0) 3 1 0 0 [] (by decide)

/-- Claim C9: evaluating the checks never mutates the history — a run of the loop
leaves the caller's history unchanged unless it accepts, and then the history
changes exactly by the accept step's `update_history`. -/
theorem checks_preserve_history (src : Nat → Int → Int → Int) (start endv : Int) :
    ∀ fuel n h,
      result_history (random_number src start endv fuel n h) h
        = expected_history (random_number src start endv fuel n h) h := by
  intro fuel
  induction fuel with
  | zero => intro n h; rfl
  | succ fuel ih =>
    intro n h
    simp only [random_number]
    by_cases hlt : endv < start
    · rw [if_pos hlt]
      rfl
    · rw [if_neg hlt]
      by_cases hacc : is_random_enough h (src n start endv) start endv = true
      · rw [if_pos hacc]
        rfl
      · rw [if_neg hacc]
        exact ih (n + 1) h

/-- Claim C10: every check is total at every history length — the two two-entry
checks return `false` below length 2, the repeat check returns `false` on an empty
history, the scored window never exceeds the last two entries plus the candidate,
and every `log2` argument in the score is at least 1, so no out-of-bounds access or
`log2` domain error can occur. -/
theorem checks_total_short_history (h1 h2 : List Int) (c : Int) (hlen : h1.length < 2) :
    check_arithmetic_sequence h1 c = false ∧
    check_alternating_sequence h1 c = false ∧
    check_repeating_sequence [] c = false ∧
    (h2.drop (h2.length - 2)).length ≤ 2 ∧
    rle_weights_pos (cdl_window h2 c) = true := by
  refine ⟨?_, ?_, rfl, ?_, ?_⟩
  · unfold check_arithmetic_sequence
    rw [if_pos hlen]
  · unfold check_alternating_sequence
    rw [if_pos hlen]
  · rw [List.length_drop]
    omega
  · unfold rle_weights_pos
    rw [List.all_eq_true]
    intro p hp
    have hc := rle_count_pos _ p hp
    simp only [Bool.and_eq_true, decide_eq_true_eq]
    exact ⟨le_max_left 1 p.1.natAbs, hc⟩

/-- Witness for claim C10. -/
theorem checks_total_short_history_witness :
    check_arithmetic_sequence [4] 9 = false ∧
    check_alternating_sequence [4] 9 = false ∧
    check_repeating_sequence [] 9 = false ∧
    ([1, 2, 3, 4].drop ([1, 2, 3, 4].length - 2)).length ≤ 2 ∧
    rle_weights_pos (cdl_window [1, 2, 3, 4] 9) = true :=
  checks_total_short_history [4] [1, 2, 3, 4] 9 (by decide)

end PatternRandomness
